import Mathlib

/-!
Verification of the aggregation and layout logic of `src/graph.js`
(usa-spending-sankey): a script that fetches U.S. federal spending data,
aggregates it over three category axes (object class, budget function,
agency) and renders a Sankey diagram.

The JavaScript is shallowly embedded: numbers are modelled as `ℚ`
(idealized exact arithmetic for JS floats), the mutable global
`categories` / `amounts` state is passed explicitly, and in-place
mutation becomes pure list transformation.
-/

namespace SankeyGraph

/-- Fiscal year constant `YEAR = "2019"` from graph.js. -/
def YEAR : String := "2019"

/-- Canvas height constant `HEIGHT = 1440` from graph.js. -/
def HEIGHT : ℚ := 1440

/-- One flat amount observation, as accumulated by `download_amounts`:
object-class name, budget-function name, agency name, amount. -/
structure AmountRecord where
  object_class : String
  budget_function : String
  agency : String
  amount : ℚ
deriving Repr, DecidableEq

/-! ## Category Loader (`download_categories`) -/

/-- The three category types queried by the script. -/
inductive CategoryType where
  | object_class
  | budget_function
  | agency
deriving Repr, DecidableEq

/-- One item of an API category response: `{id, type, name, amount}`. -/
structure CatResult where
  id : ℕ
  type : CategoryType
  name : String
  amount : ℚ
deriving Repr, DecidableEq

/-- The `categories` table while ids are still present: one ordered list
of (id, name) pairs per category type. -/
structure RawCategories where
  object_class : List (ℕ × String)
  budget_function : List (ℕ × String)
  agency : List (ℕ × String)
deriving Repr, DecidableEq

/-- The empty table, as initialized by `categories[category] = []`. -/
def RawCategories.empty : RawCategories := ⟨[], [], []⟩

/-- Read a category type's list out of the table
(`categories[result.type]`). -/
def RawCategories.get (c : RawCategories) : CategoryType → List (ℕ × String)
  | .object_class => c.object_class
  | .budget_function => c.budget_function
  | .agency => c.agency

/-- Model of `categories[result.type].push([result.id, result.name])`. -/
def RawCategories.push (c : RawCategories) (t : CategoryType) (p : ℕ × String) :
    RawCategories :=
  match t with
  | .object_class => { c with object_class := c.object_class ++ [p] }
  | .budget_function => { c with budget_function := c.budget_function ++ [p] }
  | .agency => { c with agency := c.agency ++ [p] }

/-- Body of the inner response loop of `download_categories`: keep the
(id, name) pair only when `result.amount != 0`. -/
def pushResult (c : RawCategories) (r : CatResult) : RawCategories :=
  if r.amount ≠ 0 then c.push r.type (r.id, r.name) else c

/-- Model of `download_categories`, with the network abstracted away: the ordered
list of response bodies (one `results` list per awaited request) is the
input, and the filled `categories` table is the output. -/
def download_categories (responses : List (List CatResult)) : RawCategories :=
  responses.foldl (fun c results => results.foldl pushResult c) RawCategories.empty

/-! ## Data Cleaner (`consolidate_agencies`)

`consolidate_agencies` runs after `remove_ids`, so the agency category
list is a plain list of name strings at that point. -/

/-- JavaScript `Array.prototype.indexOf` on a string array: index of the
first occurrence, `-1` when absent. -/
def jsIndexOf : List String → String → Int
  | [], _ => -1
  | x :: xs, y =>
    if x = y then 0
    else if jsIndexOf xs y = -1 then -1 else jsIndexOf xs y + 1

/-- The per-record body of `consolidate_agencies`'s loop:
`if (categories.agency.indexOf(amount.agency) >= n_agencies) amount.agency = "Other"`. -/
def consolidate_record (n : ℕ) (agencies : List String) (a : AmountRecord) :
    AmountRecord :=
  if jsIndexOf agencies a.agency ≥ (n : Int) then { a with agency := "Other" } else a

/-- Model of `consolidate_agencies(n)`: rewrite every amount record whose agency
sits at index ≥ n of the agency list (or is absent, index −1 — then not
rewritten), then `splice(n)` the agency list and `push("Other")`.
Returns the new agency category list and the new amounts list. -/
def consolidate_agencies (n : ℕ) (agencies : List String)
    (amounts : List AmountRecord) : List String × List AmountRecord :=
  (agencies.take n ++ ["Other"], amounts.map (consolidate_record n agencies))

/-! ## Graph Builder (`create_graph`)

Runs after `clean_data`, so all three category lists are plain lists of
names. -/

/-- The cleaned `categories` table: name lists per category type. -/
structure CategoryTable where
  object_class : List String
  budget_function : List String
  agency : List String
deriving Repr, DecidableEq

/-- A graph node, `{name}`. -/
structure GNode where
  name : String
deriving Repr, DecidableEq

/-- A graph link: `{source, target, names, value}` where `source` and
`target` are node indices and `names` is the path label. -/
structure GLink where
  source : ℕ
  target : ℕ
  names : List String
  value : ℚ
deriving Repr, DecidableEq

/-- Does an amount record satisfy the given constraints object?  Each
field of the JS `constraints` object is an optional constraint; `none`
means the key is absent from the object. -/
def matchesConstraints (a : AmountRecord) (oc bf ag : Option String) : Bool :=
  (match oc with | some s => a.object_class == s | none => true) &&
  (match bf with | some s => a.budget_function == s | none => true) &&
  (match ag with | some s => a.agency == s | none => true)

/-- Model of `sum_filter(constraints)`: total of `amount.amount` over all records
satisfying every constraint. -/
def sum_filter (amounts : List AmountRecord) (oc bf ag : Option String) : ℚ :=
  amounts.foldl (fun total a => if matchesConstraints a oc bf ag then total + a.amount else total) 0

/-- Model of `gen_ids`: builds the `ids` object mapping each category name to the
node index it was pushed at (`nodes.length` at push time, starting from
`base`); a later duplicate overwrites an earlier one.  An absent key
(never queried by `create_graph`) maps to 0. -/
def gen_ids (base : ℕ) (cats : List String) : String → ℕ :=
  (cats.foldl (fun (p : (String → ℕ) × ℕ) c =>
    (fun x => if x = c then p.2 else p.1 x, p.2 + 1)) (fun _ => 0, base)).1

/-- Model of `create_graph()`: node list (root first, then one node per object
class, budget function and agency, in order) and link list.  Root links
are pushed unconditionally; object-class→budget-function and
budget-function→agency links only when their constrained sum is `> 0`. -/
def create_graph (cats : CategoryTable) (amounts : List AmountRecord) :
    List GNode × List GLink :=
  let nodes := ⟨"USA FY " ++ YEAR ++ " Spending"⟩ ::
    (cats.object_class ++ cats.budget_function ++ cats.agency).map GNode.mk
  let ocIds := gen_ids 1 cats.object_class
  let bfIds := gen_ids (1 + cats.object_class.length) cats.budget_function
  let agIds := gen_ids (1 + cats.object_class.length + cats.budget_function.length)
    cats.agency
  let links := cats.object_class.flatMap (fun oc =>
    { source := 0, target := ocIds oc, names := [oc],
      value := sum_filter amounts (some oc) none none } ::
    cats.budget_function.flatMap (fun bf =>
      (if 0 < sum_filter amounts (some oc) (some bf) none then
        [{ source := ocIds oc, target := bfIds bf, names := [oc, bf],
           value := sum_filter amounts (some oc) (some bf) none }]
      else []) ++
      cats.agency.filterMap (fun ag =>
        if 0 < sum_filter amounts (some oc) (some bf) (some ag) then
          some { source := bfIds bf, target := agIds ag, names := [oc, bf, ag],
                 value := sum_filter amounts (some oc) (some bf) (some ag) }
        else none)))
  (nodes, links)

/-! ## Layout Adjuster (`justify_vertically`)

Nodes carry the fields `justify_vertically` reads or writes: the layer
index, the vertical extent `y0`/`y1`, and the lists of attached links.
Object references become indices: `sourceLinks`/`targetLinks` hold
indices into a shared link array, mirroring the shared mutable link
objects of the JS. -/

/-- A laid-out node, with its attached link indices. -/
structure LNode where
  layer : ℕ
  y0 : ℚ
  y1 : ℚ
  sourceLinks : List ℕ
  targetLinks : List ℕ
deriving Repr, DecidableEq

/-- A laid-out link's endpoint coordinates (`link.y0` at the source,
`link.y1` at the target). -/
structure LLink where
  y0 : ℚ
  y1 : ℚ
deriving Repr, DecidableEq

/-- The mutable state `justify_vertically` operates on. -/
structure LState where
  nodes : List LNode
  links : List LLink
deriving Repr, DecidableEq

/-- Update the i-th element of a list in place. -/
def modifyAt : List α → ℕ → (α → α) → List α
  | [], _, _ => []
  | x :: xs, 0, f => f x :: xs
  | x :: xs, i + 1, f => x :: modifyAt xs i f

/-- Propagate a node's offset to its links:
`link.y0 += offset` for source links, `link.y1 += offset` for target
links. -/
def applyOffsetLinks (links : List LLink) (nd : LNode) (off : ℚ) : List LLink :=
  let links1 := nd.sourceLinks.foldl
    (fun ls i => modifyAt ls i (fun lk => { lk with y0 := lk.y0 + off })) links
  nd.targetLinks.foldl
    (fun ls i => modifyAt ls i (fun lk => { lk with y1 := lk.y1 + off })) links1

/-- The walk over one layer's nodes: for each node of layer `L` (in list
order) compute `offset = y - node.y0`, advance
`y += (node.y1 - node.y0) + spacing`, shift the node's extent by the
offset, and shift its attached link endpoints by the same offset.  Nodes
of other layers pass through untouched. -/
def layerWalk (L : ℕ) (spacing : ℚ) :
    List LNode → ℚ → List LLink → List LNode × List LLink
  | [], _, links => ([], links)
  | nd :: rest, y, links =>
    if nd.layer = L then
      let off := y - nd.y0
      let r := layerWalk L spacing rest (y + (nd.y1 - nd.y0) + spacing)
        (applyOffsetLinks links nd off)
      ({ nd with y0 := nd.y0 + off, y1 := nd.y1 + off } :: r.1, r.2)
    else
      let r := layerWalk L spacing rest y links
      (nd :: r.1, r.2)

/-- The nodes of layer `L`, in list order. -/
def layerOf (nodes : List LNode) (L : ℕ) : List LNode :=
  nodes.filter (fun n => n.layer == L)

/-- The `node_height` accumulator: total occupied height of layer `L`. -/
def layerHeight (nodes : List LNode) (L : ℕ) : ℚ :=
  ((layerOf nodes L).map (fun n => n.y1 - n.y0)).sum

/-- The count `layer_nodes.length` for layer `L`. -/
def layerCount (nodes : List LNode) (L : ℕ) : ℕ :=
  (layerOf nodes L).length

/-- The quantity `spacing = (HEIGHT - node_height) / (layer_nodes.length + 1)`. -/
def layerSpacing (nodes : List LNode) (L : ℕ) : ℚ :=
  (HEIGHT - layerHeight nodes L) / (layerCount nodes L + 1)

/-- One iteration of the outer `for (var layer = 0; layer < 4; ...)`
loop body. -/
def justify_layer (L : ℕ) (st : LState) : LState :=
  let s := layerSpacing st.nodes L
  let r := layerWalk L s st.nodes s st.links
  ⟨r.1, r.2⟩

/-- Model of `justify_vertically(nodes)`: process layers 0, 1, 2, 3 in order. -/
def justify_vertically (st : LState) : LState :=
  justify_layer 3 (justify_layer 2 (justify_layer 1 (justify_layer 0 st)))

/-- Specification helper: the node positions the walk assigns to one
layer's nodes — starting at `y`, each node is placed at the running
coordinate (its height preserved) and the coordinate advances by the
node's height plus the spacing. -/
def positioned (s : ℚ) : List LNode → ℚ → List LNode
  | [], _ => []
  | nd :: rest, y =>
    { nd with y0 := y, y1 := y + (nd.y1 - nd.y0) } ::
      positioned s rest (y + (nd.y1 - nd.y0) + s)

/-- A layer node list is aligned at `y` with spacing `s` when each node
in order starts exactly at the running coordinate — i.e. a further walk
would compute offset 0 everywhere. -/
def alignedAt (s : ℚ) : List LNode → ℚ → Prop
  | [], _ => True
  | nd :: rest, y => nd.y0 = y ∧ alignedAt s rest (y + (nd.y1 - nd.y0) + s)

/-- The nodes of layer `L` after the Layout Adjuster has run. -/
def adjustedLayer (st : LState) (L : ℕ) : List LNode :=
  layerOf (justify_vertically st).nodes L

/-- The uniform gap of a layer node list:
(canvas height − occupied height) / (count + 1). -/
def layerGap (ns : List LNode) : ℚ :=
  (HEIGHT - (ns.map (fun n => n.y1 - n.y0)).sum) / (ns.length + 1)

/-! ## Lemmas about the Category Loader -/

lemma push_get (c : RawCategories) (ty t : CategoryType) (p : ℕ × String) :
    (c.push ty p).get t = if ty = t then c.get t ++ [p] else c.get t := by
  cases ty <;> cases t <;> simp [RawCategories.push, RawCategories.get]

lemma pushResult_get (c : RawCategories) (r : CatResult) (t : CategoryType) :
    (pushResult c r).get t =
      c.get t ++ (if r.type == t && !(r.amount == 0) then [(r.id, r.name)] else []) := by
  unfold pushResult
  by_cases h0 : r.amount = 0 <;> by_cases ht : r.type = t <;>
    simp [h0, ht, push_get]

lemma foldl_pushResult_get (t : CategoryType) (results : List CatResult) :
    ∀ c : RawCategories,
      (results.foldl pushResult c).get t =
        c.get t ++ (results.filter (fun r => r.type == t && !(r.amount == 0))).map
          (fun r => (r.id, r.name)) := by
  induction results with
  | nil => simp
  | cons r rs ih =>
    intro c
    by_cases h : (r.type == t && !(r.amount == 0)) = true <;>
      simp [ih, pushResult_get, h, List.filter_cons]

lemma foldl_responses_get (t : CategoryType) (rs : List (List CatResult)) :
    ∀ c : RawCategories,
      (rs.foldl (fun c results => results.foldl pushResult c) c).get t =
        c.get t ++ (rs.flatten.filter
          (fun r => r.type == t && !(r.amount == 0))).map (fun r => (r.id, r.name)) := by
  induction rs with
  | nil => simp
  | cons x xs ihx =>
    intro c
    simp [ihx, foldl_pushResult_get, List.filter_append]

/-- C7: For every API response list, the Category Loader retains exactly
those (identifier, name) pairs whose reported amount is non-zero — in
each category type's table, the retained pairs are precisely the
response items of that type with non-zero amount, in response order. -/
theorem category_loader_filters_zero_amounts
    (responses : List (List CatResult)) (t : CategoryType) :
    (download_categories responses).get t =
      (responses.flatten.filter (fun r => r.type == t && !(r.amount == 0))).map
        (fun r => (r.id, r.name)) := by
  unfold download_categories
  rw [foldl_responses_get]
  cases t <;> rfl

/-! ## Lemmas about `jsIndexOf` and agency consolidation -/

lemma jsIndexOf_of_not_mem {l : List String} {x : String} (h : x ∉ l) :
    jsIndexOf l x = -1 := by
  induction l with
  | nil => rfl
  | cons a as ih =>
    have hax : ¬a = x := fun hax => h (hax ▸ List.mem_cons_self a as)
    have hxs : x ∉ as := fun hxs => h (List.mem_cons_of_mem a hxs)
    simp [jsIndexOf, hax, ih hxs]

lemma jsIndexOf_nonneg_of_mem {l : List String} {x : String} (h : x ∈ l) :
    0 ≤ jsIndexOf l x := by
  induction l with
  | nil => simp at h
  | cons a as ih =>
    by_cases hax : a = x
    · simp [jsIndexOf, hax]
    · have hxs : x ∈ as := by
        rcases List.mem_cons.mp h with h1 | h2
        · exact absurd h1.symm hax
        · exact h2
      have h0 := ih hxs
      have hne : ¬jsIndexOf as x = -1 := by omega
      simp [jsIndexOf, hax, hne]
      omega

lemma mem_take_of_jsIndexOf_lt {l : List String} {x : String} {n : ℕ}
    (hmem : x ∈ l) (hlt : jsIndexOf l x < (n : Int)) : x ∈ l.take n := by
  induction l generalizing n with
  | nil => simp at hmem
  | cons a as ih =>
    by_cases hax : a = x
    · have : 0 < (n : Int) := by simpa [jsIndexOf, hax] using hlt
      have hn : 0 < n := by exact_mod_cast this
      obtain ⟨m, rfl⟩ : ∃ m, n = m + 1 := ⟨n - 1, by omega⟩
      simp [hax]
    · have hxs : x ∈ as := by
        rcases List.mem_cons.mp hmem with h1 | h2
        · exact absurd h1.symm hax
        · exact h2
      have h0 := jsIndexOf_nonneg_of_mem hxs
      have hne : ¬jsIndexOf as x = -1 := by omega
      have hval : jsIndexOf (a :: as) x = jsIndexOf as x + 1 := by
        simp [jsIndexOf, hax, hne]
      rw [hval] at hlt
      obtain ⟨m, rfl⟩ : ∃ m, n = m + 1 := ⟨n - 1, by omega⟩
      have hm : jsIndexOf as x < (m : Int) := by push_cast at hlt ⊢; omega
      rw [List.take_succ_cons]
      exact List.mem_cons_of_mem a (ih hxs hm)

/-- C9: a record whose agency name occurs nowhere in the agency category
list is left unchanged by consolidation (its `indexOf` is −1, below any
cutoff), for every cutoff `n`. -/
theorem consolidation_skips_unknown_agencies
    (n : ℕ) (agencies : List String) (amounts : List AmountRecord) (i : ℕ)
    (a : AmountRecord) (hget : amounts[i]? = some a)
    (hmem : a.agency ∉ agencies) :
    (consolidate_agencies n agencies amounts).2[i]? = some a := by
  have hrec : consolidate_record n agencies a = a := by
    unfold consolidate_record
    rw [jsIndexOf_of_not_mem hmem]
    have : ¬(-1 : Int) ≥ (n : Int) := by
      have : (0 : Int) ≤ (n : Int) := Int.ofNat_nonneg n
      omega
    simp [this]
  simp [consolidate_agencies, List.getElem?_map, hget, hrec]

/-- Witness for C9 at a concrete input. -/
theorem consolidation_skips_unknown_agencies_witness :
    (consolidate_agencies 0 ["A"]
      [⟨"o", "f", "Z", 1⟩]).2[0]? = some ⟨"o", "f", "Z", 1⟩ :=
  consolidation_skips_unknown_agencies 0 ["A"] [⟨"o", "f", "Z", 1⟩] 0
    ⟨"o", "f", "Z", 1⟩ rfl (by decide)

/-- C1 counterexample: with cutoff 2 but only one agency in the table,
`splice(2)` removes nothing and the resulting agency list has 2 entries,
not 2 + 1 — so the claim's "exactly N+1 entries for every cutoff N"
fails as stated. -/
theorem consolidation_length_counterexample :
    ¬ ((consolidate_agencies 2 ["A"] []).1.length = 2 + 1) := by decide

/-- C1 (amended): when the cutoff does not exceed the number of listed
agencies, the agency list has no duplicates, "Other" is not itself a
listed agency, and every record's agency occurs in the list, then after
consolidation with cutoff n the agency category list is exactly the
first n original names followed by "Other" (n+1 entries), and every
record's agency is one of those first n names or "Other", never one of
the truncated names. -/
theorem consolidation_cutoff_shape
    (n : ℕ) (agencies : List String) (amounts : List AmountRecord)
    (hn : n ≤ agencies.length) (hnd : agencies.Nodup)
    (hoth : "Other" ∉ agencies)
    (hmem : ∀ a ∈ amounts, a.agency ∈ agencies) :
    (consolidate_agencies n agencies amounts).1.length = n + 1 ∧
    (consolidate_agencies n agencies amounts).1 = agencies.take n ++ ["Other"] ∧
    ∀ a ∈ (consolidate_agencies n agencies amounts).2,
      (a.agency ∈ agencies.take n ∨ a.agency = "Other") ∧
      a.agency ∉ agencies.drop n := by
  refine ⟨?_, rfl, ?_⟩
  · simp [consolidate_agencies, List.length_take, Nat.min_eq_left hn]
  · intro a ha
    simp only [consolidate_agencies, List.mem_map] at ha
    obtain ⟨b, hb, rfl⟩ := ha
    have hbmem : b.agency ∈ agencies := hmem b hb
    unfold consolidate_record
    by_cases hidx : jsIndexOf agencies b.agency ≥ (n : Int)
    · rw [if_pos hidx]
      refine ⟨Or.inr rfl, ?_⟩
      intro hcon
      exact hoth (List.mem_of_mem_drop hcon)
    · rw [if_neg hidx]
      have hlt : jsIndexOf agencies b.agency < (n : Int) := by omega
      have htake : b.agency ∈ agencies.take n :=
        mem_take_of_jsIndexOf_lt hbmem hlt
      refine ⟨Or.inl htake, ?_⟩
      intro hdrop
      exact (List.disjoint_take_drop hnd le_rfl) htake hdrop

/-- Witness for the amended C1 at a concrete input. -/
theorem consolidation_cutoff_shape_witness :
    (consolidate_agencies 1 ["A", "B"]
      [⟨"o", "f", "A", 1⟩, ⟨"o", "f", "B", 2⟩]).1.length = 1 + 1 :=
  (consolidation_cutoff_shape 1 ["A", "B"]
    [⟨"o", "f", "A", 1⟩, ⟨"o", "f", "B", 2⟩]
    (by decide) (by decide) (by decide) (by decide)).1

/-! ## Division safety of the Layout Adjuster -/

/-- C8: the spacing division's divisor is the layer's node count plus 1,
which is positive (so never zero) for every node list, and equals 1 for
an empty layer. -/
theorem spacing_divisor_positive (nodes : List LNode) (L : ℕ) :
    (0 : ℚ) < (layerCount nodes L : ℚ) + 1 ∧
    (layerCount nodes L = 0 → ((layerCount nodes L : ℚ) + 1) = 1) := by
  constructor
  · positivity
  · intro h; rw [h]; norm_num

/-- Witness for C8 at a concrete input: the empty node list's layer 0 is
empty and its divisor is 1. -/
theorem spacing_divisor_positive_witness :
    ((layerCount ([] : List LNode) 0 : ℚ) + 1) = 1 :=
  (spacing_divisor_positive [] 0).2 rfl

/-! ## Lemmas about the Graph Builder -/

lemma flatMap_single {α β : Type} (l : List α) (f : α → β) :
    (l.flatMap fun x => [f x]) = l.map f := by
  induction l with
  | nil => rfl
  | cons a as ih => simp [List.flatMap_cons, ih]

/-- Membership in `create_graph`'s link list: a link is either a root
link of some listed object class (unconditional), an
object-class→budget-function link with positive constrained sum, or a
budget-function→agency link with positive constrained sum. -/
lemma mem_create_graph_links {cats : CategoryTable} {amounts : List AmountRecord}
    {lk : GLink} :
    lk ∈ (create_graph cats amounts).2 ↔
      (∃ oc ∈ cats.object_class,
        lk = ⟨0, gen_ids 1 cats.object_class oc, [oc],
          sum_filter amounts (some oc) none none⟩) ∨
      (∃ oc ∈ cats.object_class, ∃ bf ∈ cats.budget_function,
        0 < sum_filter amounts (some oc) (some bf) none ∧
        lk = ⟨gen_ids 1 cats.object_class oc,
          gen_ids (1 + cats.object_class.length) cats.budget_function bf, [oc, bf],
          sum_filter amounts (some oc) (some bf) none⟩) ∨
      (∃ oc ∈ cats.object_class, ∃ bf ∈ cats.budget_function, ∃ ag ∈ cats.agency,
        0 < sum_filter amounts (some oc) (some bf) (some ag) ∧
        lk = ⟨gen_ids (1 + cats.object_class.length) cats.budget_function bf,
          gen_ids (1 + cats.object_class.length + cats.budget_function.length)
            cats.agency ag, [oc, bf, ag],
          sum_filter amounts (some oc) (some bf) (some ag)⟩) := by
  simp only [create_graph, List.mem_flatMap, List.mem_cons, List.mem_append,
    List.mem_filterMap, List.mem_ite_nil_right, List.mem_singleton,
    Option.ite_none_right_eq_some, Option.some.injEq, List.not_mem_nil, or_false]
  constructor
  · rintro ⟨oc, hoc, h | (⟨bf, hbf, ⟨hpos, rfl⟩ | ⟨ag, hag, hpos, rfl⟩⟩)⟩
    · exact Or.inl ⟨oc, hoc, h⟩
    · exact Or.inr (Or.inl ⟨oc, hoc, bf, hbf, hpos, rfl⟩)
    · exact Or.inr (Or.inr ⟨oc, hoc, bf, hbf, ag, hag, hpos, rfl⟩)
  · rintro (⟨oc, hoc, rfl⟩ | ⟨oc, hoc, bf, hbf, hpos, rfl⟩ |
      ⟨oc, hoc, bf, hbf, ag, hag, hpos, rfl⟩)
    · exact ⟨oc, hoc, Or.inl rfl⟩
    · exact ⟨oc, hoc, Or.inr ⟨bf, hbf, Or.inl ⟨hpos, rfl⟩⟩⟩
    · exact ⟨oc, hoc, Or.inr ⟨bf, hbf, Or.inr ⟨ag, hag, hpos, rfl⟩⟩⟩

/-- C2: the root edges of the built graph — the links labeled with a
one-element path — are exactly one per object-class entry, in table
order, each with source 0, target that object class's node, label
[object class], and value equal to the sum over all records of that
object class irrespective of budget function and agency; they are
created unconditionally. -/
theorem root_edges_unconditional (cats : CategoryTable)
    (amounts : List AmountRecord) :
    ((create_graph cats amounts).2).filter (fun lk => lk.names.length == 1) =
      cats.object_class.map (fun oc =>
        ⟨0, gen_ids 1 cats.object_class oc, [oc],
          sum_filter amounts (some oc) none none⟩) := by
  show List.filter _ (cats.object_class.flatMap _) = _
  rw [List.filter_flatMap]
  have h1 : ∀ oc : String,
      List.filter (fun lk : GLink => lk.names.length == 1)
        (({ source := 0, target := gen_ids 1 cats.object_class oc, names := [oc],
            value := sum_filter amounts (some oc) none none } : GLink) ::
          cats.budget_function.flatMap (fun bf =>
            (if 0 < sum_filter amounts (some oc) (some bf) none then
              [{ source := gen_ids 1 cats.object_class oc,
                 target := gen_ids (1 + cats.object_class.length)
                   cats.budget_function bf, names := [oc, bf],
                 value := sum_filter amounts (some oc) (some bf) none }]
            else []) ++
            cats.agency.filterMap (fun ag =>
              if 0 < sum_filter amounts (some oc) (some bf) (some ag) then
                some { source := gen_ids (1 + cats.object_class.length)
                         cats.budget_function bf,
                       target := gen_ids (1 + cats.object_class.length +
                         cats.budget_function.length) cats.agency ag,
                       names := [oc, bf, ag],
                       value := sum_filter amounts (some oc) (some bf) (some ag) }
              else none))) =
        [{ source := 0, target := gen_ids 1 cats.object_class oc, names := [oc],
           value := sum_filter amounts (some oc) none none }] := by
    intro oc
    rw [List.filter_cons_of_pos (by simp)]
    congr 1
    rw [List.filter_eq_nil_iff]
    intro lk hlk
    simp only [List.mem_flatMap, List.mem_append, List.mem_ite_nil_right,
      List.mem_singleton, List.mem_filterMap, Option.ite_none_right_eq_some,
      Option.some.injEq] at hlk
    obtain ⟨bf, _, ⟨_, rfl⟩ | ⟨ag, _, _, rfl⟩⟩ := hlk <;> simp
  simp only [h1]
  exact flatMap_single _ _

/-- C3: for listed object class and budget function names, an
object-class→budget-function edge exists exactly when the constrained
sum over both is strictly positive, and for a listed agency a
budget-function→agency edge on the full path exists exactly when the
triple-constrained sum is strictly positive; zero-sum paths get no
edge. -/
theorem deep_edges_iff_positive_sum (cats : CategoryTable)
    (amounts : List AmountRecord) (oc bf : String)
    (hoc : oc ∈ cats.object_class) (hbf : bf ∈ cats.budget_function) :
    ((∃ lk ∈ (create_graph cats amounts).2, lk.names = [oc, bf]) ↔
      0 < sum_filter amounts (some oc) (some bf) none) ∧
    (∀ ag ∈ cats.agency,
      ((∃ lk ∈ (create_graph cats amounts).2, lk.names = [oc, bf, ag]) ↔
        0 < sum_filter amounts (some oc) (some bf) (some ag))) := by
  constructor
  · constructor
    · rintro ⟨lk, hmem, hnames⟩
      rcases mem_create_graph_links.mp hmem with
        ⟨oc', _, rfl⟩ | ⟨oc', _, bf', _, hpos, rfl⟩ | ⟨oc', _, bf', _, ag', _, _, rfl⟩
      · simp at hnames
      · obtain ⟨rfl, rfl⟩ : oc' = oc ∧ bf' = bf := by
          simpa using hnames
        exact hpos
      · simp at hnames
    · intro hpos
      refine ⟨⟨gen_ids 1 cats.object_class oc,
        gen_ids (1 + cats.object_class.length) cats.budget_function bf, [oc, bf],
        sum_filter amounts (some oc) (some bf) none⟩, ?_, rfl⟩
      exact mem_create_graph_links.mpr
        (Or.inr (Or.inl ⟨oc, hoc, bf, hbf, hpos, rfl⟩))
  · intro ag hag
    constructor
    · rintro ⟨lk, hmem, hnames⟩
      rcases mem_create_graph_links.mp hmem with
        ⟨oc', _, rfl⟩ | ⟨oc', _, bf', _, _, rfl⟩ | ⟨oc', _, bf', _, ag', _, hpos, rfl⟩
      · simp at hnames
      · simp at hnames
      · obtain ⟨rfl, rfl, rfl⟩ : oc' = oc ∧ bf' = bf ∧ ag' = ag := by
          simpa using hnames
        exact hpos
    · intro hpos
      refine ⟨⟨gen_ids (1 + cats.object_class.length) cats.budget_function bf,
        gen_ids (1 + cats.object_class.length + cats.budget_function.length)
          cats.agency ag, [oc, bf, ag],
        sum_filter amounts (some oc) (some bf) (some ag)⟩, ?_, rfl⟩
      exact mem_create_graph_links.mpr
        (Or.inr (Or.inr ⟨oc, hoc, bf, hbf, ag, hag, hpos, rfl⟩))

/-- Witness for C3 at a concrete input: with one record `A/B/X` of
amount 5, the constrained sum for `[A, B]` is positive and an edge
labeled `[A, B]` exists. -/
theorem deep_edges_iff_positive_sum_witness :
    ∃ lk ∈ (create_graph ⟨["A"], ["B"], ["X"]⟩ [⟨"A", "B", "X", 5⟩]).2,
      lk.names = ["A", "B"] :=
  (deep_edges_iff_positive_sum ⟨["A"], ["B"], ["X"]⟩ [⟨"A", "B", "X", 5⟩]
    "A" "B" (by decide) (by decide)).1.mpr
    (by norm_num [sum_filter, matchesConstraints])

/-- C4 counterexample: with one object class and no amount records, the
aggregated amount of the path ["A"] is 0, yet the graph still contains
its (root) edge — so "zero-value paths produce no edge anywhere,
including root edges" fails as stated. -/
theorem root_edge_with_zero_value :
    ∃ lk ∈ (create_graph ⟨["A"], [], []⟩ []).2, ¬(0 < lk.value) := by
  have h : (create_graph ⟨["A"], [], []⟩ []).2 =
      [⟨0, 1, ["A"], sum_filter [] (some "A") none none⟩] := rfl
  refine ⟨⟨0, 1, ["A"], sum_filter [] (some "A") none none⟩, ?_, ?_⟩
  · rw [h]; exact List.mem_singleton_self _
  · show ¬((0 : ℚ) < sum_filter [] (some "A") none none)
    norm_num [sum_filter]

/-- C4 (amended): every non-root edge — every link whose path label has
at least two names — has a strictly positive value; root edges are
created unconditionally and may carry value 0. -/
theorem deep_edges_strictly_positive (cats : CategoryTable)
    (amounts : List AmountRecord) (lk : GLink)
    (hmem : lk ∈ (create_graph cats amounts).2)
    (hlen : 2 ≤ lk.names.length) : 0 < lk.value := by
  rcases mem_create_graph_links.mp hmem with
    ⟨oc, _, rfl⟩ | ⟨oc, _, bf, _, hpos, rfl⟩ | ⟨oc, _, bf, _, ag, _, hpos, rfl⟩
  · simp at hlen
  · exact hpos
  · exact hpos

/-- Witness for the amended C4 at a concrete input: the `[A, B]` edge of
a one-record graph has positive value. -/
theorem deep_edges_strictly_positive_witness :
    0 < (GLink.mk 1 2 ["A", "B"]
      (sum_filter [⟨"A", "B", "X", 5⟩] (some "A") (some "B") none)).value :=
  deep_edges_strictly_positive ⟨["A"], ["B"], []⟩ [⟨"A", "B", "X", 5⟩]
    ⟨1, 2, ["A", "B"], sum_filter [⟨"A", "B", "X", 5⟩] (some "A") (some "B") none⟩
    (mem_create_graph_links.mpr (Or.inr (Or.inl
      ⟨"A", by decide, "B", by decide,
        by norm_num [sum_filter, matchesConstraints], rfl⟩)))
    (by decide)

/-! ## Lemmas about the Layout Adjuster's walk -/

lemma layerWalk_filter_eq (L : ℕ) (s : ℚ) :
    ∀ (l : List LNode) (y : ℚ) (links : List LLink),
      ((layerWalk L s l y links).1).filter (fun n => n.layer == L) =
        positioned s (l.filter (fun n => n.layer == L)) y := by
  intro l
  induction l with
  | nil => intro y links; rfl
  | cons nd rest ih =>
    intro y links
    by_cases h : nd.layer = L
    · have hb : (nd.layer == L) = true := by simp [h]
      simp only [layerWalk, if_pos h]
      rw [List.filter_cons_of_pos (by simpa using hb),
        List.filter_cons_of_pos (by simpa using hb)]
      rw [ih]
      have hnode : ({ nd with y0 := nd.y0 + (y - nd.y0), y1 := nd.y1 + (y - nd.y0) } : LNode)
          = { nd with y0 := y, y1 := y + (nd.y1 - nd.y0) } := by
        cases nd; simp; ring
      rw [hnode, positioned]
    · have hb : (nd.layer == L) = false := by simp [h]
      simp only [layerWalk, if_neg h]
      rw [List.filter_cons_of_neg (by simp [hb]),
        List.filter_cons_of_neg (by simp [hb])]
      exact ih y links

lemma layerWalk_filter_ne (L M : ℕ) (s : ℚ) (hne : M ≠ L) :
    ∀ (l : List LNode) (y : ℚ) (links : List LLink),
      ((layerWalk L s l y links).1).filter (fun n => n.layer == M) =
        l.filter (fun n => n.layer == M) := by
  intro l
  induction l with
  | nil => intro y links; rfl
  | cons nd rest ih =>
    intro y links
    by_cases h : nd.layer = L
    · have hM : ¬(nd.layer = M) := fun hc => hne (hc ▸ h.symm ▸ rfl)
      simp only [layerWalk, if_pos h]
      rw [List.filter_cons_of_neg (by simp [hM]),
        List.filter_cons_of_neg (by simp; exact fun hc => hM (by simpa using hc))]
      exact ih _ _
    · simp only [layerWalk, if_neg h]
      by_cases hM : nd.layer = M
      · rw [List.filter_cons_of_pos (by simp [hM]),
          List.filter_cons_of_pos (by simp [hM])]
        rw [ih]
      · rw [List.filter_cons_of_neg (by simp [hM]),
          List.filter_cons_of_neg (by simp [hM])]
        exact ih _ _

lemma layerWalk_heights (L : ℕ) (s : ℚ) :
    ∀ (l : List LNode) (y : ℚ) (links : List LLink),
      ((layerWalk L s l y links).1).map (fun n => n.y1 - n.y0) =
        l.map (fun n => n.y1 - n.y0) := by
  intro l
  induction l with
  | nil => intro y links; rfl
  | cons nd rest ih =>
    intro y links
    by_cases h : nd.layer = L
    · simp only [layerWalk, if_pos h, List.map_cons, ih]
      congr 1
      ring
    · simp only [layerWalk, if_neg h, List.map_cons, ih]

lemma layerWalk_untouched (L : ℕ) (s : ℚ) :
    ∀ (l : List LNode) (y : ℚ) (links : List LLink) (i : ℕ) (nd : LNode),
      l[i]? = some nd → nd.layer ≠ L →
      ((layerWalk L s l y links).1)[i]? = some nd := by
  intro l
  induction l with
  | nil => intro y links i nd hget; simp at hget
  | cons hd rest ih =>
    intro y links i nd hget hlayer
    match i with
    | 0 =>
      have hnd : hd = nd := by simpa using hget
      subst hnd
      simp only [layerWalk, if_neg hlayer]
      simp
    | i + 1 =>
      have hget' : rest[i]? = some nd := by simpa using hget
      by_cases h : hd.layer = L
      · simp only [layerWalk, if_pos h]
        simpa using ih _ _ i nd hget' hlayer
      · simp only [layerWalk, if_neg h]
        simpa using ih _ _ i nd hget' hlayer

/-! ## Lemmas about `positioned` -/

lemma positioned_length (s : ℚ) :
    ∀ (l : List LNode) (y : ℚ), (positioned s l y).length = l.length := by
  intro l
  induction l with
  | nil => intro y; rfl
  | cons nd rest ih => intro y; simp [positioned, ih]

lemma positioned_heights (s : ℚ) :
    ∀ (l : List LNode) (y : ℚ),
      (positioned s l y).map (fun n => n.y1 - n.y0) =
        l.map (fun n => n.y1 - n.y0) := by
  intro l
  induction l with
  | nil => intro y; rfl
  | cons nd rest ih =>
    intro y
    simp only [positioned, List.map_cons, ih]
    congr 1
    ring

lemma positioned_head (s : ℚ) (l : List LNode) (y : ℚ) (nd : LNode)
    (h : (positioned s l y)[0]? = some nd) : nd.y0 = y := by
  cases l with
  | nil => simp [positioned] at h
  | cons hd rest =>
    have : ({ hd with y0 := y, y1 := y + (hd.y1 - hd.y0) } : LNode) = nd := by
      simpa [positioned] using h
    rw [← this]

lemma positioned_consecutive (s : ℚ) :
    ∀ (l : List LNode) (y : ℚ) (i : ℕ) (nd1 nd2 : LNode),
      (positioned s l y)[i]? = some nd1 →
      (positioned s l y)[i + 1]? = some nd2 → nd2.y0 = nd1.y1 + s := by
  intro l
  induction l with
  | nil => intro y i nd1 nd2 h1; simp [positioned] at h1
  | cons hd rest ih =>
    intro y i nd1 nd2 h1 h2
    match i with
    | 0 =>
      have hnd1 : ({ hd with y0 := y, y1 := y + (hd.y1 - hd.y0) } : LNode) = nd1 := by
        simpa [positioned] using h1
      have h2' : (positioned s rest (y + (hd.y1 - hd.y0) + s))[0]? = some nd2 := by
        simpa [positioned] using h2
      have := positioned_head s rest (y + (hd.y1 - hd.y0) + s) nd2 h2'
      rw [this, ← hnd1]
    | i + 1 =>
      have h1' : (positioned s rest (y + (hd.y1 - hd.y0) + s))[i]? = some nd1 := by
        simpa [positioned] using h1
      have h2' : (positioned s rest (y + (hd.y1 - hd.y0) + s))[i + 1]? = some nd2 := by
        simpa [positioned] using h2
      exact ih _ i nd1 nd2 h1' h2'

lemma positioned_getLast (s : ℚ) :
    ∀ (l : List LNode) (y : ℚ) (nd : LNode),
      (positioned s l y).getLast? = some nd →
      nd.y1 = y + (l.map (fun n => n.y1 - n.y0)).sum + s * ((l.length : ℚ) - 1) := by
  intro l
  induction l with
  | nil => intro y nd h; simp [positioned] at h
  | cons hd rest ih =>
    intro y nd h
    cases rest with
    | nil =>
      have : ({ hd with y0 := y, y1 := y + (hd.y1 - hd.y0) } : LNode) = nd := by
        simpa [positioned] using h
      rw [← this]
      simp
    | cons hd2 rest2 =>
      have h' : (positioned s (hd2 :: rest2) (y + (hd.y1 - hd.y0) + s)).getLast? =
          some nd := by
        have hcons : positioned s (hd :: hd2 :: rest2) y =
            { hd with y0 := y, y1 := y + (hd.y1 - hd.y0) } ::
              positioned s (hd2 :: rest2) (y + (hd.y1 - hd.y0) + s) := rfl
        have hcons2 : positioned s (hd2 :: rest2) (y + (hd.y1 - hd.y0) + s) = { hd2 with y0 := y + (hd.y1 - hd.y0) + s, y1 := y + (hd.y1 - hd.y0) + s + (hd2.y1 - hd2.y0) } :: positioned s rest2 (y + (hd.y1 - hd.y0) + s + (hd2.y1 - hd2.y0) + s) := rfl
        rw [hcons, hcons2] at h
        rw [List.getLast?_cons_cons] at h
        rw [hcons2]
        exact h
      have := ih (y + (hd.y1 - hd.y0) + s) nd h'
      rw [this]
      simp only [List.map_cons, List.sum_cons, List.length_cons]
      push_cast
      ring

lemma positioned_alignedAt (s : ℚ) :
    ∀ (l : List LNode) (y : ℚ), alignedAt s (positioned s l y) y := by
  intro l
  induction l with
  | nil => intro y; trivial
  | cons nd rest ih =>
    intro y
    refine ⟨rfl, ?_⟩
    have harith : y + (y + (nd.y1 - nd.y0) - y) + s = y + (nd.y1 - nd.y0) + s := by
      ring
    simpa [harith] using ih (y + (nd.y1 - nd.y0) + s)

/-! ## Per-pass and composed properties of `justify_layer` -/

lemma justify_layer_layerOf_eq (L : ℕ) (st : LState) :
    layerOf (justify_layer L st).nodes L =
      positioned (layerSpacing st.nodes L) (layerOf st.nodes L)
        (layerSpacing st.nodes L) := by
  unfold justify_layer layerOf
  exact layerWalk_filter_eq L (layerSpacing st.nodes L) st.nodes
    (layerSpacing st.nodes L) st.links

lemma justify_layer_layerOf_ne (L M : ℕ) (st : LState) (hne : M ≠ L) :
    layerOf (justify_layer L st).nodes M = layerOf st.nodes M := by
  unfold justify_layer layerOf
  exact layerWalk_filter_ne L M (layerSpacing st.nodes L) hne st.nodes
    (layerSpacing st.nodes L) st.links

lemma justify_layer_layerHeight (L M : ℕ) (st : LState) :
    layerHeight (justify_layer L st).nodes M = layerHeight st.nodes M := by
  unfold layerHeight
  by_cases h : M = L
  · subst h
    rw [justify_layer_layerOf_eq, positioned_heights]
  · rw [justify_layer_layerOf_ne L M st h]

lemma justify_layer_layerCount (L M : ℕ) (st : LState) :
    layerCount (justify_layer L st).nodes M = layerCount st.nodes M := by
  unfold layerCount
  by_cases h : M = L
  · subst h
    rw [justify_layer_layerOf_eq, positioned_length]
  · rw [justify_layer_layerOf_ne L M st h]

lemma justify_layer_layerSpacing (L M : ℕ) (st : LState) :
    layerSpacing (justify_layer L st).nodes M = layerSpacing st.nodes M := by
  unfold layerSpacing
  rw [justify_layer_layerHeight, justify_layer_layerCount]

lemma justify_vertically_layerSpacing (M : ℕ) (st : LState) :
    layerSpacing (justify_vertically st).nodes M = layerSpacing st.nodes M := by
  unfold justify_vertically
  rw [justify_layer_layerSpacing, justify_layer_layerSpacing,
    justify_layer_layerSpacing, justify_layer_layerSpacing]

/-- After the full adjuster, each handled layer's node list is exactly
the `positioned` sequence started at that layer's spacing, computed from
the input state. -/
lemma adjustedLayer_eq_positioned (st : LState) (L : ℕ) (hL : L < 4) :
    adjustedLayer st L =
      positioned (layerSpacing st.nodes L) (layerOf st.nodes L)
        (layerSpacing st.nodes L) := by
  unfold adjustedLayer justify_vertically
  interval_cases L
  · rw [justify_layer_layerOf_ne 3 0 _ (by omega),
      justify_layer_layerOf_ne 2 0 _ (by omega),
      justify_layer_layerOf_ne 1 0 _ (by omega),
      justify_layer_layerOf_eq 0 st]
  · rw [justify_layer_layerOf_ne 3 1 _ (by omega),
      justify_layer_layerOf_ne 2 1 _ (by omega),
      justify_layer_layerOf_eq 1 _,
      justify_layer_layerSpacing 0 1 st,
      justify_layer_layerOf_ne 0 1 _ (by omega)]
  · rw [justify_layer_layerOf_ne 3 2 _ (by omega),
      justify_layer_layerOf_eq 2 _,
      justify_layer_layerSpacing 1 2 _, justify_layer_layerSpacing 0 2 st,
      justify_layer_layerOf_ne 1 2 _ (by omega),
      justify_layer_layerOf_ne 0 2 _ (by omega)]
  · rw [justify_layer_layerOf_eq 3 _,
      justify_layer_layerSpacing 2 3 _, justify_layer_layerSpacing 1 3 _,
      justify_layer_layerSpacing 0 3 st,
      justify_layer_layerOf_ne 2 3 _ (by omega),
      justify_layer_layerOf_ne 1 3 _ (by omega),
      justify_layer_layerOf_ne 0 3 _ (by omega)]

/-- The adjusted layer's uniform gap (computed from the post-adjustment
heights and count) equals the spacing the walk used. -/
lemma layerGap_adjustedLayer (st : LState) (L : ℕ) (hL : L < 4) :
    layerGap (adjustedLayer st L) = layerSpacing st.nodes L := by
  unfold layerGap layerSpacing layerHeight layerCount
  rw [adjustedLayer_eq_positioned st L hL, positioned_heights, positioned_length]

/-- C5: after adjustment, every handled layer is evenly spaced: the
uniform gap times (count + 1) exhausts the canvas height minus the
occupied height, the first node starts one gap from the top, each
subsequent node starts one gap below its predecessor's end, and the last
node ends one gap above the canvas bottom. -/
theorem layout_layers_evenly_spaced (st : LState) (L : ℕ) (hL : L < 4) :
    layerGap (adjustedLayer st L) * ((adjustedLayer st L).length + 1) =
      HEIGHT - ((adjustedLayer st L).map (fun n => n.y1 - n.y0)).sum
    ∧ (∀ nd : LNode, (adjustedLayer st L)[0]? = some nd →
        nd.y0 = layerGap (adjustedLayer st L))
    ∧ (∀ (i : ℕ) (nd1 nd2 : LNode), (adjustedLayer st L)[i]? = some nd1 →
        (adjustedLayer st L)[i + 1]? = some nd2 →
        nd2.y0 = nd1.y1 + layerGap (adjustedLayer st L))
    ∧ (∀ nd : LNode, (adjustedLayer st L).getLast? = some nd →
        HEIGHT - nd.y1 = layerGap (adjustedLayer st L)) := by
  have hpos := adjustedLayer_eq_positioned st L hL
  have hgap := layerGap_adjustedLayer st L hL
  set s := layerSpacing st.nodes L with hs
  have hden : ((adjustedLayer st L).length : ℚ) + 1 ≠ 0 := by positivity
  have hsum : layerGap (adjustedLayer st L) * ((adjustedLayer st L).length + 1) =
      HEIGHT - ((adjustedLayer st L).map (fun n => n.y1 - n.y0)).sum := by
    unfold layerGap
    rw [div_mul_cancel₀ _ hden]
  refine ⟨hsum, ?_, ?_, ?_⟩
  · intro nd hnd
    rw [hgap]
    exact positioned_head s (layerOf st.nodes L) s nd (by rwa [hpos] at hnd)
  · intro i nd1 nd2 h1 h2
    rw [hgap]
    exact positioned_consecutive s (layerOf st.nodes L) s i nd1 nd2
      (by rwa [hpos] at h1) (by rwa [hpos] at h2)
  · intro nd hnd
    rw [hgap]
    have hlast := positioned_getLast s (layerOf st.nodes L) s nd
      (by rwa [hpos] at hnd)
    -- the layer is nonempty, else getLast? would be none
    have hne : (layerOf st.nodes L).length ≠ 0 := by
      intro hzero
      have : layerOf st.nodes L = [] := List.length_eq_zero.mp hzero
      rw [hpos, this] at hnd
      simp [positioned] at hnd
    have hcount : ((adjustedLayer st L).length : ℚ) = (layerOf st.nodes L).length := by
      rw [hpos, positioned_length]
    have hheights : ((adjustedLayer st L).map (fun n => n.y1 - n.y0)).sum =
        ((layerOf st.nodes L).map (fun n => n.y1 - n.y0)).sum := by
      rw [hpos, positioned_heights]
    rw [hgap, hcount, hheights] at hsum
    have hk : (1 : ℚ) ≤ ((layerOf st.nodes L).length : ℚ) := by
      have : 1 ≤ (layerOf st.nodes L).length := Nat.one_le_iff_ne_zero.mpr hne
      exact_mod_cast this
    rw [hlast]
    have hexp : s * (((layerOf st.nodes L).length : ℚ) + 1) =
        HEIGHT - ((layerOf st.nodes L).map (fun n => n.y1 - n.y0)).sum := hsum
    linarith [hexp]

/-- Witness for C5 at a concrete input: a single layer-0 node of height
440 on the 1440-high canvas gets gap (1440 − 440) / 2 = 500. -/
theorem layout_layers_evenly_spaced_witness :
    layerGap (adjustedLayer ⟨[⟨0, 0, 440, [], []⟩], []⟩ 0) *
        ((adjustedLayer ⟨[⟨0, 0, 440, [], []⟩], []⟩ 0).length + 1) =
      HEIGHT - ((adjustedLayer ⟨[⟨0, 0, 440, [], []⟩], []⟩ 0).map
        (fun n => n.y1 - n.y0)).sum :=
  (layout_layers_evenly_spaced ⟨[⟨0, 0, 440, [], []⟩], []⟩ 0 (by norm_num)).1

/-! ## Idempotence of the Layout Adjuster -/

lemma modifyAt_id {α : Type} (f : α → α) (hf : ∀ x, f x = x) :
    ∀ (l : List α) (i : ℕ), modifyAt l i f = l := by
  intro l
  induction l with
  | nil => intro i; rfl
  | cons x xs ih =>
    intro i
    match i with
    | 0 => simp [modifyAt, hf]
    | i + 1 => simp [modifyAt, ih]

lemma foldl_modifyAt_id {α : Type} (f : α → α) (hf : ∀ x, f x = x) :
    ∀ (idxs : List ℕ) (l : List α),
      idxs.foldl (fun ls i => modifyAt ls i f) l = l := by
  intro idxs
  induction idxs with
  | nil => intro l; rfl
  | cons i rest ih => intro l; simp [List.foldl_cons, modifyAt_id f hf, ih]

lemma applyOffsetLinks_zero (links : List LLink) (nd : LNode) :
    applyOffsetLinks links nd 0 = links := by
  unfold applyOffsetLinks
  rw [foldl_modifyAt_id _ (fun lk => by cases lk; simp),
    foldl_modifyAt_id _ (fun lk => by cases lk; simp)]

/-- When a layer is already aligned at `y` with spacing `s`, the walk is
the identity on both nodes and links. -/
lemma layerWalk_eq_self (L : ℕ) (s : ℚ) :
    ∀ (l : List LNode) (y : ℚ) (links : List LLink),
      alignedAt s (l.filter (fun n => n.layer == L)) y →
      layerWalk L s l y links = (l, links) := by
  intro l
  induction l with
  | nil => intro y links _; rfl
  | cons nd rest ih =>
    intro y links halign
    by_cases h : nd.layer = L
    · have hb : (nd.layer == L) = true := by simp [h]
      rw [List.filter_cons_of_pos (by simpa using hb)] at halign
      obtain ⟨hy0, hrest⟩ := halign
      have hoff : y - nd.y0 = 0 := by rw [hy0]; ring
      simp only [layerWalk, if_pos h, hoff]
      rw [applyOffsetLinks_zero]
      have hnd : ({ nd with y0 := nd.y0 + 0, y1 := nd.y1 + 0 } : LNode) = nd := by
        cases nd; simp
      have hy' : y + (nd.y1 - nd.y0) + s = nd.y0 + (nd.y1 - nd.y0) + s := by
        rw [hy0]
      have hrest' : alignedAt s (rest.filter (fun n => n.layer == L))
          (y + (nd.y1 - nd.y0) + s) := by
        rw [hy0]
        rwa [hy0] at hrest
      rw [ih (y + (nd.y1 - nd.y0) + s) links hrest', hnd]
    · have hb : (nd.layer == L) = false := by simp [h]
      rw [List.filter_cons_of_neg (by simp [hb])] at halign
      simp only [layerWalk, if_neg h]
      rw [ih y links halign]

/-- A pass over a layer that is already aligned leaves the whole state
unchanged. -/
lemma justify_layer_fix (L : ℕ) (st : LState)
    (halign : alignedAt (layerSpacing st.nodes L) (layerOf st.nodes L)
      (layerSpacing st.nodes L)) :
    justify_layer L st = st := by
  show LState.mk (layerWalk L (layerSpacing st.nodes L) st.nodes
    (layerSpacing st.nodes L) st.links).1 (layerWalk L (layerSpacing st.nodes L)
      st.nodes (layerSpacing st.nodes L) st.links).2 = st
  rw [layerWalk_eq_self L (layerSpacing st.nodes L) st.nodes
    (layerSpacing st.nodes L) st.links halign]

/-- Each handled layer of the adjusted state is aligned at its own
spacing, so a re-run's pass over it is the identity. -/
lemma adjusted_layer_aligned (st : LState) (L : ℕ) (hL : L < 4) :
    alignedAt (layerSpacing (justify_vertically st).nodes L)
      (layerOf (justify_vertically st).nodes L)
      (layerSpacing (justify_vertically st).nodes L) := by
  rw [justify_vertically_layerSpacing]
  have := adjustedLayer_eq_positioned st L hL
  unfold adjustedLayer at this
  rw [this]
  exact positioned_alignedAt _ _ _

/-- C6: the Layout Adjuster is idempotent — applying it to its own
output changes nothing: no node's y0/y1 and no link endpoint moves
(exact rational arithmetic). -/
theorem justify_vertically_idempotent (st : LState) :
    justify_vertically (justify_vertically st) = justify_vertically st := by
  have h0 : justify_layer 0 (justify_vertically st) = justify_vertically st :=
    justify_layer_fix 0 _ (adjusted_layer_aligned st 0 (by norm_num))
  have h1 : justify_layer 1 (justify_vertically st) = justify_vertically st :=
    justify_layer_fix 1 _ (adjusted_layer_aligned st 1 (by norm_num))
  have h2 : justify_layer 2 (justify_vertically st) = justify_vertically st :=
    justify_layer_fix 2 _ (adjusted_layer_aligned st 2 (by norm_num))
  have h3 : justify_layer 3 (justify_vertically st) = justify_vertically st :=
    justify_layer_fix 3 _ (adjusted_layer_aligned st 3 (by norm_num))
  calc justify_vertically (justify_vertically st)
      = justify_layer 3 (justify_layer 2 (justify_layer 1
          (justify_layer 0 (justify_vertically st)))) := rfl
    _ = justify_vertically st := by rw [h0, h1, h2, h3]

/-! ## Frame properties of the Layout Adjuster -/

lemma justify_layer_heights (L : ℕ) (st : LState) :
    (justify_layer L st).nodes.map (fun n => n.y1 - n.y0) =
      st.nodes.map (fun n => n.y1 - n.y0) := by
  unfold justify_layer
  exact layerWalk_heights L (layerSpacing st.nodes L) st.nodes
    (layerSpacing st.nodes L) st.links

lemma justify_layer_untouched (L : ℕ) (st : LState) (i : ℕ) (nd : LNode)
    (hget : st.nodes[i]? = some nd) (hlayer : nd.layer ≠ L) :
    (justify_layer L st).nodes[i]? = some nd := by
  unfold justify_layer
  exact layerWalk_untouched L (layerSpacing st.nodes L) st.nodes
    (layerSpacing st.nodes L) st.links i nd hget hlayer

/-- C10: the Layout Adjuster preserves every node's height (y1 − y0),
and leaves a node with layer index outside 0–3 entirely unchanged. -/
theorem layout_preserves_heights_and_foreign_nodes (st : LState) :
    (justify_vertically st).nodes.map (fun n => n.y1 - n.y0) =
      st.nodes.map (fun n => n.y1 - n.y0)
    ∧ ∀ (i : ℕ) (nd : LNode), st.nodes[i]? = some nd → 4 ≤ nd.layer →
        (justify_vertically st).nodes[i]? = some nd := by
  constructor
  · unfold justify_vertically
    rw [justify_layer_heights, justify_layer_heights, justify_layer_heights,
      justify_layer_heights]
  · intro i nd hget hlayer
    unfold justify_vertically
    apply justify_layer_untouched 3 _ i nd _ (by omega)
    apply justify_layer_untouched 2 _ i nd _ (by omega)
    apply justify_layer_untouched 1 _ i nd _ (by omega)
    exact justify_layer_untouched 0 st i nd hget (by omega)

/-- Witness for C10 at a concrete input: a node tagged with layer 5 is
returned exactly as it was. -/
theorem layout_preserves_heights_and_foreign_nodes_witness :
    (justify_vertically ⟨[⟨5, 3, 7, [], []⟩], []⟩).nodes[0]? =
      some ⟨5, 3, 7, [], []⟩ :=
  (layout_preserves_heights_and_foreign_nodes ⟨[⟨5, 3, 7, [], []⟩], []⟩).2
    0 ⟨5, 3, 7, [], []⟩ rfl (by norm_num)

end SankeyGraph
